import Mathlib

/-!
Shallow embedding of the mtgdc_aggregator engine (src/__init__.py).

Modelling choices:
  - A synthetic item instance is the Python string "name i" produced by an
    f-string; since the appended index never contains a space, that string
    parses uniquely back into the pair (name, index), so we represent an
    instance as the pair and pair equality coincides with tag-string equality.
    The string order used by the source when canonicalising combinations is
    recovered through tagStr.
  - Python Counter and dict objects preserve first-insertion order of keys,
    which the source observes when iterating the ledger and the rank mapping;
    they are embedded as association lists with that order made explicit.
  - Python float rank values are count * 2^-size sums of dyadic rationals,
    computed exactly by IEEE doubles at the scales the program works at; they
    are embedded as rational numbers.
  - The while loop of Aggregator.aggregate is embedded with explicit fuel;
    AggErr.fuelOut marks fuel exhaustion and is proved unreachable for the
    fuel chosen, while AggErr.valueError models the ValueError raised by
    Python's min() on an empty rank mapping.
-/

/-- Error outcome of the pruning machinery: valueError models the ValueError
raised by min() on an empty sequence; fuelOut is the loop-fuel marker. -/
inductive AggErr where
  | valueError
  | fuelOut
deriving DecidableEq

/-- A card name (base name of an item). -/
abbrev Card := String

/-- A synthetic item instance (base name, 0-based occurrence index); the
source stores it as the string "name index". -/
abbrev Tag := Card × Nat

/-- A combination key: the canonically sorted tuple of member instances. -/
abbrev Combo := List Tag

/-- The tag string the source builds with an f-string for an instance. -/
def tagStr (t : Tag) : String := t.1 ++ " " ++ toString t.2

/-- Lexicographic comparison of char lists, mirroring Python string <. -/
def charListLt : List Char → List Char → Bool
  | [], [] => false
  | [], _ :: _ => true
  | _ :: _, [] => false
  | a :: as, b :: bs => if a < b then true else if a = b then charListLt as bs else false

/-- Boolean string comparison mirroring Python string <. -/
def strLtB (a b : String) : Bool := charListLt a.data b.data

/-- Insert an instance into a list sorted by its tag string. -/
def insertTag (a : Tag) : List Tag → List Tag
  | [] => [a]
  | b :: bs => if strLtB (tagStr a) (tagStr b) then a :: b :: bs else b :: insertTag a bs

/-- Sort the members of a combination by tag-string order: the embedding of
tuple(sorted(comb)) over the instance strings. -/
def sortTags : List Tag → List Tag
  | [] => []
  | a :: as => insertTag a (sortTags as)

/-- All size-r selections of distinct positions of a list, in the order
itertools.combinations yields them. -/
def combosOfSize : List Tag → Nat → List (List Tag)
  | _, 0 => [[]]
  | [], _ + 1 => []
  | x :: xs, r + 1 => (combosOfSize xs r).map (fun c => x :: c) ++ combosOfSize xs (r + 1)

/-- Aggregator.get_combinations: every canonically sorted selection of
1..max_size distinct instances of the deck. -/
def get_combinations (lst : List Tag) (max_size : Nat) : List Combo :=
  ((List.range max_size).map (fun i => (combosOfSize lst (i + 1)).map sortTags)).flatten

/-- One increment of a Python Counter: bump an existing key in place or
append a new key with count 1 (Counter keeps first-insertion order). -/
def counterAdd {α : Type} [DecidableEq α] : List (α × Nat) → α → List (α × Nat)
  | [], x => [(x, 1)]
  | (k, v) :: rest, x => if k = x then (k, v + 1) :: rest else (k, v) :: counterAdd rest x

/-- Counter.update with an iterable of keys. -/
def counterUpdate {α : Type} [DecidableEq α] (c : List (α × Nat)) (xs : List α) : List (α × Nat) :=
  xs.foldl counterAdd c

/-- The keys of a Counter/dict, in insertion order. -/
def counterKeys {α : Type} (c : List (α × Nat)) : List α := c.map Prod.fst

/-- dict.get(k, 0) on a counter embedded as an association list. -/
def lookupCount {α : Type} [DecidableEq α] : List (α × Nat) → α → Nat
  | [], _ => 0
  | (k, v) :: rest, x => if k = x then v else lookupCount rest x

/-- The instance expansion of one input deck of (quantity, name) pairs:
skips banned names, and each remaining pair yields one instance per index in
range(int(qty)) — which is empty when the quantity is not positive. -/
def expandDeck (banned : Card → Bool) (deck : List (Int × Card)) : List Tag :=
  (deck.map (fun p =>
    if banned p.2 then [] else (List.range p.1.toNat).map (fun i => (p.2, i)))).flatten

/-- The state of one Aggregator object. -/
structure Aggregator where
  ordre : Nat
  size : Int
  decklists : List (List Tag)
  ranking_structure : List (Combo × Nat)
  initial_ranking_structure : List (Combo × Nat)
  collective : List Tag
deriving DecidableEq

deriving instance DecidableEq for Except

/-- Aggregator.__init__: expand each deck, accumulate the co-occurrence
ledger over all decks, and take the key set of the instance counter as the
initial collective. -/
def Aggregator.init (banned : Card → Bool) (decklists : List (List (Int × Card)))
    (ordre : Nat) (size : Int) : Aggregator :=
  let dls := decklists.map (expandDeck banned)
  let rs := dls.foldl (fun acc deck => counterUpdate acc (get_combinations deck ordre)) []
  let tmp := dls.foldl (fun acc deck => counterUpdate acc deck) []
  { ordre := ordre, size := size, decklists := dls,
    ranking_structure := rs, initial_ranking_structure := rs,
    collective := counterKeys tmp }

/-- A dyadic rational num / 2 ^ exp: the exact value held by the IEEE floats
the source manipulates (count * 2 ** -size products and their sums are exact
at the program's scales). Kept unnormalised; comparisons go through
cross-multiplication so they agree with the numeric value. -/
structure Dy where
  num : Int
  exp : Nat

/-- Numeric equality of two dyadic rationals (float ==). -/
def dyEq (a b : Dy) : Bool := decide (a.num * 2 ^ b.exp = b.num * 2 ^ a.exp)

/-- Numeric order on dyadic rationals (float <=). -/
def dyLe (a b : Dy) : Bool := decide (a.num * 2 ^ b.exp ≤ b.num * 2 ^ a.exp)

/-- Exact float addition of dyadic rationals. -/
def dyAdd (a b : Dy) : Dy := ⟨a.num * 2 ^ b.exp + b.num * 2 ^ a.exp, a.exp + b.exp⟩

/-- Python min of two float values, keeping the earlier argument on ties. -/
def dyMin (a b : Dy) : Dy := if dyLe a b then a else b

/-- The rational value of a dyadic rational, linking Dy to ℚ. -/
def dyVal (d : Dy) : ℚ := (d.num : ℚ) / 2 ^ d.exp

/-- ranks[card] += rank on the per-instance rank mapping (a Python
defaultdict preserving first-insertion order). -/
def ranksAdd : List (Tag × Dy) → Tag → Dy → List (Tag × Dy)
  | [], t, r => [(t, r)]
  | (k, v) :: rest, t, r =>
    if k = t then (k, dyAdd v r) :: rest else (k, v) :: ranksAdd rest t r

/-- The inner loop of _calculate_ranks: add one combination's weight to each
of its members. -/
def addComboRanks (rks : List (Tag × Dy)) (comb : Combo) (r : Dy) : List (Tag × Dy) :=
  comb.foldl (fun acc t => ranksAdd acc t r) rks

/-- set(combination) <= self.collective. -/
def comboValid (coll : List Tag) (comb : Combo) : Bool :=
  comb.all (fun t => decide (t ∈ coll))

/-- The ledger garbage collection performed by _calculate_ranks: keep
exactly the combinations whose every member is still in the collective. -/
def updatedRanking (rs : List (Combo × Nat)) (coll : List Tag) : List (Combo × Nat) :=
  rs.filter (fun p => comboValid coll p.1)

/-- The per-instance rank mapping computed by _calculate_ranks from the
surviving combinations: each contributes count * (1 / 2 ^ size). -/
def computeRanks (rs : List (Combo × Nat)) : List (Tag × Dy) :=
  rs.foldl (fun acc p => addComboRanks acc p.1 ⟨(p.2 : Int), p.1.length⟩) []

/-- One insertion step of Aggregator.transpose_dict; float keys compare by
numeric value, exactly as Python dict keys do. -/
def transposeAdd : List (Dy × List Tag) → Dy → Tag → List (Dy × List Tag)
  | [], v, k => [(v, [k])]
  | (w, g) :: rest, v, k =>
    if dyEq w v then (w, g ++ [k]) :: rest else (w, g) :: transposeAdd rest v k

/-- Aggregator.transpose_dict: invert the rank mapping into rank-value
groups, keys and group members in insertion order. -/
def transpose_dict (ranks : List (Tag × Dy)) : List (Dy × List Tag) :=
  ranks.foldl (fun acc p => transposeAdd acc p.2 p.1) []

/-- min(ranks.keys()): none exactly when the mapping is empty. -/
def minKey : List (Dy × List Tag) → Option Dy
  | [] => none
  | (v, _) :: rest =>
    some (match minKey rest with
      | none => v
      | some m => dyMin v m)

/-- ranks[lowest_rank]: the group stored under a rank value. -/
def findGroup : List (Dy × List Tag) → Dy → List Tag
  | [], _ => []
  | (w, g) :: rest, v => if dyEq w v then g else findGroup rest v

/-- The for loop of _remove_cards: walk the tied group, removing members
while the collective is still above the target, and break otherwise. -/
def removeLoop (size : Int) : List Tag → List Tag → List Tag
  | coll, [] => coll
  | coll, c :: cs =>
    if size < (coll.length : Int) then removeLoop size (coll.erase c) cs else coll

/-- The inverted rank mapping _remove_cards obtains from _calculate_ranks
on the current state. -/
def ranksOf (a : Aggregator) : List (Dy × List Tag) :=
  transpose_dict (computeRanks (updatedRanking a.ranking_structure a.collective))

/-- Aggregator._remove_cards: recompute ranks (committing the ledger
garbage collection), take the minimum rank value — a ValueError when the
mapping is empty — and remove tied instances down to the target. -/
def Aggregator.remove_cards (a : Aggregator) : Except AggErr Aggregator :=
  match minKey (ranksOf a) with
  | none => .error .valueError
  | some m =>
    .ok { a with ranking_structure := updatedRanking a.ranking_structure a.collective,
                 collective := removeLoop a.size a.collective (findGroup (ranksOf a) m) }

/-- The tied lowest-rank group a pruning step iterates over. -/
def tiedGroup (a : Aggregator) : List Tag :=
  match minKey (ranksOf a) with
  | none => []
  | some m => findGroup (ranksOf a) m

/-- The while loop of Aggregator.aggregate, with explicit fuel. -/
def aggregateFuel : Nat → Aggregator → Except AggErr Aggregator
  | 0, a => if a.size < (a.collective.length : Int) then .error .fuelOut else .ok a
  | fuel + 1, a =>
    if a.size < (a.collective.length : Int) then
      match a.remove_cards with
      | .error e => .error e
      | .ok b => aggregateFuel fuel b
    else .ok a

/-- Aggregator.aggregate: loop while the collective is above the target.
The fuel is sufficient because every executed step removes at least one
instance (proved below). -/
def Aggregator.aggregate (a : Aggregator) : Except AggErr Aggregator :=
  aggregateFuel (a.collective.length + 1) a

/-- The characters Python's str.strip() removes: the code points CPython
treats as str whitespace. -/
def pySpaceChars : List Char :=
  [' ', '\t', '\n', '\x0b', '\x0c', '\r', '\x1c', '\x1d', '\x1e', '\x1f',
   '\x85', '\xa0', '\u1680', '\u2000', '\u2001', '\u2002', '\u2003', '\u2004',
   '\u2005', '\u2006', '\u2007', '\u2008', '\u2009', '\u200a', '\u2028',
   '\u2029', '\u202f', '\u205f', '\u3000']

/-- Whether a character is Python str whitespace. -/
def isPySpace (c : Char) : Bool := pySpaceChars.contains c

/-- Drop the leading run of whitespace characters. -/
def dropLeadingSpace : List Char → List Char
  | [] => []
  | c :: cs => if isPySpace c then dropLeadingSpace cs else c :: cs

/-- Python's str.strip(): remove leading and trailing whitespace. -/
def pyStrip (s : String) : String :=
  ⟨(dropLeadingSpace (dropLeadingSpace s.data).reverse).reverse⟩

/-- Aggregator.remove_numeric_suffix applied to an instance tag string
"name index": the regex removes the trailing digit run, which is exactly the
appended index since the character before it is the separating space (and
the index itself holds no space), leaving "name " whose strip() equals the
base name stripped of leading and trailing whitespace; on the pair
representation the function therefore returns pyStrip of the base name. -/
def remove_numeric_suffix (t : Tag) : Card := pyStrip t.1

/-- Python tuple comparison on (name, count) pairs, as used by sorted(). -/
def pairLeB (p q : Card × Nat) : Bool :=
  if strLtB p.1 q.1 then true
  else if p.1 = q.1 then decide (p.2 ≤ q.2)
  else false

/-- Insertion step of the sort applied by concatenate. -/
def insertPair (p : Card × Nat) : List (Card × Nat) → List (Card × Nat)
  | [] => [p]
  | q :: qs => if pairLeB p q then p :: q :: qs else q :: insertPair p qs

/-- sorted(Counter(...).items()) by Python tuple order. -/
def sortPairs : List (Card × Nat) → List (Card × Nat)
  | [] => []
  | p :: ps => insertPair p (sortPairs ps)

/-- Aggregator.concatenate: count the stripped names and emit
"qty name" lines sorted by name. -/
def concatenate (decklist : List Card) : List String :=
  (sortPairs (counterUpdate [] decklist)).map (fun p => toString p.2 ++ " " ++ p.1)

/-- Aggregator.decklist: strip the synthetic index from every surviving
instance and concatenate. -/
def Aggregator.decklist (a : Aggregator) : List String :=
  concatenate (a.collective.map remove_numeric_suffix)

/-- Aggregator.robustesse: mean absolute count change over the keys of the
initial ledger; none models the float('inf') result on an empty one. -/
def Aggregator.robustesse (a : Aggregator) : Option ℚ :=
  let changes := a.initial_ranking_structure.map
    (fun p => |((lookupCount a.ranking_structure p.1 : ℚ) - (p.2 : ℚ))|)
  if changes.length = 0 then none else some (changes.sum / (changes.length : ℚ))

/-- Observe the collective size of a successful run. -/
def okCollectiveLen : Except AggErr Aggregator → Option Nat
  | .ok a => some a.collective.length
  | .error _ => none

/-- Observe the rendered decklist of a successful run. -/
def okDecklist : Except AggErr Aggregator → Option (List String)
  | .ok a => some a.decklist
  | .error _ => none

/-- Every instance of the collective still owns its singleton combination in
the ledger. -/
def SingletonInv (a : Aggregator) : Prop :=
  ∀ x ∈ a.collective, [x] ∈ counterKeys a.ranking_structure

/-- The state invariant maintained by construction and pruning: the
singleton property, a duplicate-free collective, and no empty combination in
the ledger. -/
def Good (a : Aggregator) : Prop :=
  SingletonInv a ∧ a.collective.Nodup ∧ ∀ p ∈ a.ranking_structure, p.1 ≠ ([] : Combo)

/-- A banlist that bans nothing, for concrete runs. -/
def noBan : Card → Bool := fun _ => false

/-- The two-deck Bolt/Ponder corpus of the specification's scenario. -/
def boltPonderDeck : List (Int × Card) := [((2 : Int), "Bolt"), ((1 : Int), "Ponder")]

/-- The Aggregator built from the Bolt/Ponder corpus with order 1, target 2. -/
def boltPonderAgg : Aggregator := Aggregator.init noBan [boltPonderDeck, boltPonderDeck] 1 2

/-- A four-singleton deck on which every instance ties at the minimum rank. -/
def deckABCD : List (Int × Card) :=
  [((1 : Int), "A"), ((1 : Int), "B"), ((1 : Int), "C"), ((1 : Int), "D")]

/-- The Aggregator built from the tied deck with order 1, target 2. -/
def tiedAgg : Aggregator := Aggregator.init noBan [deckABCD] 1 2

/-- All instances of every group of an inverted rank mapping, in order. -/
def flatG (l : List (Dy × List Tag)) : List Tag := (l.map Prod.snd).flatten

/-- Detects a ledger combination with a member missing from the collective in
the final state of a successful run. -/
def ledgerDesync : Except AggErr Aggregator → Bool
  | .ok a => a.ranking_structure.any (fun p => p.1.any (fun t => !(decide (t ∈ a.collective))))
  | .error _ => false

/-- A corpus whose only deck has quantity zero: its ledger is empty. -/
def zeroQtyAgg : Aggregator := Aggregator.init noBan [[((0 : Int), "Bolt")]] 1 5

/-! ### Counter lemmas -/

theorem counterKeys_counterAdd {α : Type} [DecidableEq α] (c : List (α × Nat)) (x : α) :
    counterKeys (counterAdd c x) =
      if x ∈ counterKeys c then counterKeys c else counterKeys c ++ [x] := by
  induction c with
  | nil => simp [counterAdd, counterKeys]
  | cons p rest ih =>
    obtain ⟨k, v⟩ := p
    by_cases h : k = x
    · subst h
      simp [counterAdd, counterKeys]
    · by_cases hm : x ∈ counterKeys rest
      · simp only [counterAdd, if_neg h, counterKeys, List.map_cons] at ih ⊢
        simp only [counterKeys] at hm
        simp [List.mem_cons, hm, ih, Ne.symm h]
      · simp only [counterAdd, if_neg h, counterKeys, List.map_cons] at ih ⊢
        simp only [counterKeys] at hm
        simp [List.mem_cons, hm, ih, Ne.symm h]

theorem mem_counterKeys_counterAdd {α : Type} [DecidableEq α] (c : List (α × Nat)) (x y : α) :
    y ∈ counterKeys (counterAdd c x) ↔ y ∈ counterKeys c ∨ y = x := by
  rw [counterKeys_counterAdd]
  by_cases hm : x ∈ counterKeys c
  · simp only [if_pos hm]
    constructor
    · exact fun h => Or.inl h
    · rintro (h | rfl)
      · exact h
      · exact hm
  · simp [if_neg hm]

theorem nodup_counterKeys_counterAdd {α : Type} [DecidableEq α] (c : List (α × Nat)) (x : α)
    (h : (counterKeys c).Nodup) : (counterKeys (counterAdd c x)).Nodup := by
  rw [counterKeys_counterAdd]
  by_cases hm : x ∈ counterKeys c
  · simp only [if_pos hm]
    exact h
  · simp only [if_neg hm]
    simpa [List.nodup_append] using ⟨h, fun hx => hm hx⟩

theorem mem_counterKeys_counterUpdate {α : Type} [DecidableEq α] (xs : List α) :
    ∀ (c : List (α × Nat)) (y : α),
      y ∈ counterKeys (counterUpdate c xs) ↔ y ∈ counterKeys c ∨ y ∈ xs := by
  induction xs with
  | nil => simp [counterUpdate]
  | cons x xs ih =>
    intro c y
    have : counterUpdate c (x :: xs) = counterUpdate (counterAdd c x) xs := by
      simp [counterUpdate]
    rw [this, ih, mem_counterKeys_counterAdd]
    simp only [List.mem_cons]
    tauto

theorem nodup_counterKeys_counterUpdate {α : Type} [DecidableEq α] (xs : List α) :
    ∀ (c : List (α × Nat)), (counterKeys c).Nodup → (counterKeys (counterUpdate c xs)).Nodup := by
  induction xs with
  | nil => exact fun c h => h
  | cons x xs ih =>
    intro c h
    have : counterUpdate c (x :: xs) = counterUpdate (counterAdd c x) xs := by
      simp [counterUpdate]
    rw [this]
    exact ih _ (nodup_counterKeys_counterAdd c x h)

theorem lookupCount_of_mem {α : Type} [DecidableEq α] {c : List (α × Nat)}
    (h : (counterKeys c).Nodup) {k : α} {v : Nat} (hm : (k, v) ∈ c) : lookupCount c k = v := by
  induction c with
  | nil => cases hm
  | cons p rest ih =>
    obtain ⟨k', v'⟩ := p
    simp only [counterKeys, List.map_cons, List.nodup_cons] at h
    rcases List.mem_cons.mp hm with heq | hmem
    · injection heq with h1 h2
      subst h1; subst h2
      simp [lookupCount]
    · by_cases hk : k' = k
      · exfalso
        subst hk
        exact h.1 (List.mem_map_of_mem Prod.fst hmem)
      · simpa [lookupCount, hk] using ih h.2 hmem

theorem removeLoop_subset (size : Int) :
    ∀ (g coll : List Tag), removeLoop size coll g ⊆ coll := by
  intro g
  induction g with
  | nil => intro coll; simp [removeLoop]
  | cons c cs ih =>
    intro coll
    simp only [removeLoop]
    by_cases h : size < (coll.length : Int)
    · simp only [if_pos h]
      exact fun x hx => List.mem_of_mem_erase (ih (coll.erase c) hx)
    · simp [if_neg h]

theorem removeLoop_nodup (size : Int) :
    ∀ (g coll : List Tag), coll.Nodup → (removeLoop size coll g).Nodup := by
  intro g
  induction g with
  | nil => intro coll h; simpa [removeLoop] using h
  | cons c cs ih =>
    intro coll h
    simp only [removeLoop]
    by_cases hlt : size < (coll.length : Int)
    · simp only [if_pos hlt]
      exact ih _ (h.erase c)
    · simpa [if_neg hlt] using h

theorem removeLoop_length_le (size : Int) :
    ∀ (g coll : List Tag), (removeLoop size coll g).length ≤ coll.length := by
  intro g
  induction g with
  | nil => intro coll; simp [removeLoop]
  | cons c cs ih =>
    intro coll
    simp only [removeLoop]
    by_cases hlt : size < (coll.length : Int)
    · simp only [if_pos hlt]
      exact le_trans (ih (coll.erase c)) (coll.erase_sublist c).length_le
    · simp [if_neg hlt]

theorem removeLoop_size_le (size : Int) :
    ∀ (g coll : List Tag), size ≤ (coll.length : Int) →
      size ≤ ((removeLoop size coll g).length : Int) := by
  intro g
  induction g with
  | nil => intro coll h; simpa [removeLoop] using h
  | cons c cs ih =>
    intro coll h
    simp only [removeLoop]
    by_cases hlt : size < (coll.length : Int)
    · simp only [if_pos hlt]
      apply ih
      have h1 : coll.length - 1 ≤ (coll.erase c).length := by
        by_cases hc : c ∈ coll
        · rw [coll.length_erase_of_mem hc]
        · rw [List.erase_of_not_mem hc]
          omega
      omega
    · simpa [if_neg hlt] using h

theorem removeLoop_noop (size : Int) (g coll : List Tag)
    (h : (coll.length : Int) ≤ size) : removeLoop size coll g = coll := by
  cases g with
  | nil => simp [removeLoop]
  | cons c cs =>
    have : ¬ size < (coll.length : Int) := by omega
    simp [removeLoop, this]

theorem removeLoop_strict (size : Int) (coll : List Tag) (c : Tag) (cs : List Tag)
    (hlt : size < (coll.length : Int)) (hc : c ∈ coll) :
    (removeLoop size coll (c :: cs)).length < coll.length := by
  simp only [removeLoop, if_pos hlt]
  have h1 : (coll.erase c).length = coll.length - 1 := coll.length_erase_of_mem hc
  have h2 := removeLoop_length_le size cs (coll.erase c)
  have h3 : 0 < coll.length := by
    cases coll with
    | nil => cases hc
    | cons _ _ => simp
  omega

theorem removeLoop_exact (size : Int) :
    ∀ (g coll : List Tag), coll.Nodup → g.Nodup → (∀ x ∈ g, x ∈ coll) →
      size ≤ (coll.length : Int) →
      ((removeLoop size coll g).length : Int) = max size ((coll.length : Int) - g.length) := by
  intro g
  induction g with
  | nil =>
    intro coll _ _ _ h
    simp only [removeLoop, List.length_nil]
    omega
  | cons c cs ih =>
    intro coll hnd hgnd hsub h
    simp only [removeLoop]
    by_cases hlt : size < (coll.length : Int)
    · simp only [if_pos hlt]
      have hc : c ∈ coll := hsub c (List.mem_cons_self c cs)
      have hlen : (coll.erase c).length = coll.length - 1 := coll.length_erase_of_mem hc
      have hcs : ∀ x ∈ cs, x ∈ coll.erase c := by
        intro x hx
        have hne : x ≠ c := by
          intro he
          subst he
          exact (List.nodup_cons.mp hgnd).1 hx
        exact (List.mem_erase_of_ne hne).mpr (hsub x (List.mem_cons_of_mem c hx))
      have := ih (coll.erase c) (hnd.erase c) (List.nodup_cons.mp hgnd).2 hcs
        (by omega)
      rw [this]
      simp only [List.length_cons]
      have h0 : 0 < coll.length := by
        cases coll with
        | nil => cases hc
        | cons _ _ => simp
      omega
    · simp only [if_neg hlt]
      have : (coll.length : Int) = size := by omega
      simp only [List.length_cons, this]
      omega

/-! ### Rank-mapping lemmas -/

theorem keys_ranksAdd (l : List (Tag × Dy)) (t : Tag) (r : Dy) :
    (ranksAdd l t r).map Prod.fst =
      if t ∈ l.map Prod.fst then l.map Prod.fst else l.map Prod.fst ++ [t] := by
  induction l with
  | nil => simp [ranksAdd]
  | cons p rest ih =>
    obtain ⟨k, v⟩ := p
    by_cases h : k = t
    · subst h
      simp [ranksAdd]
    · by_cases hm : t ∈ rest.map Prod.fst
      · simp only [ranksAdd, if_neg h, List.map_cons] at ih ⊢
        simp [List.mem_cons, hm, ih, Ne.symm h]
      · simp only [ranksAdd, if_neg h, List.map_cons] at ih ⊢
        simp [List.mem_cons, hm, ih, Ne.symm h]

theorem mem_keys_ranksAdd (l : List (Tag × Dy)) (t : Tag) (r : Dy) (y : Tag) :
    y ∈ (ranksAdd l t r).map Prod.fst ↔ y ∈ l.map Prod.fst ∨ y = t := by
  rw [keys_ranksAdd]
  by_cases hm : t ∈ l.map Prod.fst
  · simp only [if_pos hm]
    constructor
    · exact fun h => Or.inl h
    · rintro (h | rfl)
      · exact h
      · exact hm
  · simp [if_neg hm]

theorem nodup_keys_ranksAdd (l : List (Tag × Dy)) (t : Tag) (r : Dy)
    (h : (l.map Prod.fst).Nodup) : ((ranksAdd l t r).map Prod.fst).Nodup := by
  rw [keys_ranksAdd]
  by_cases hm : t ∈ l.map Prod.fst
  · simp only [if_pos hm]
    exact h
  · simp only [if_neg hm]
    rw [List.nodup_append]
    refine ⟨h, List.nodup_singleton t, ?_⟩
    intro x hx hx'
    rw [List.mem_singleton] at hx'
    subst hx'
    exact hm hx

theorem mem_keys_addComboRanks (comb : Combo) :
    ∀ (l : List (Tag × Dy)) (r : Dy) (y : Tag),
      y ∈ (addComboRanks l comb r).map Prod.fst ↔ y ∈ l.map Prod.fst ∨ y ∈ comb := by
  induction comb with
  | nil => simp [addComboRanks]
  | cons c cs ih =>
    intro l r y
    have hstep : addComboRanks l (c :: cs) r = addComboRanks (ranksAdd l c r) cs r := by
      simp [addComboRanks]
    rw [hstep, ih, mem_keys_ranksAdd]
    simp only [List.mem_cons]
    tauto

theorem nodup_keys_addComboRanks (comb : Combo) :
    ∀ (l : List (Tag × Dy)) (r : Dy), (l.map Prod.fst).Nodup →
      ((addComboRanks l comb r).map Prod.fst).Nodup := by
  induction comb with
  | nil => exact fun l r h => h
  | cons c cs ih =>
    intro l r h
    have hstep : addComboRanks l (c :: cs) r = addComboRanks (ranksAdd l c r) cs r := by
      simp [addComboRanks]
    rw [hstep]
    exact ih _ r (nodup_keys_ranksAdd l c r h)

theorem mem_keys_computeRanks_aux (rs : List (Combo × Nat)) :
    ∀ (acc : List (Tag × Dy)) (y : Tag),
      y ∈ (rs.foldl (fun acc p => addComboRanks acc p.1 ⟨(p.2 : Int), p.1.length⟩) acc).map
        Prod.fst ↔ y ∈ acc.map Prod.fst ∨ ∃ p ∈ rs, y ∈ p.1 := by
  induction rs with
  | nil => simp
  | cons q rest ih =>
    intro acc y
    simp only [List.foldl_cons]
    rw [ih, mem_keys_addComboRanks]
    simp only [List.mem_cons]
    constructor
    · rintro (⟨h | h⟩ | ⟨p, hp, hy⟩)
      · exact Or.inl h
      · exact Or.inr ⟨q, Or.inl rfl, h⟩
      · exact Or.inr ⟨p, Or.inr hp, hy⟩
    · rintro (h | ⟨p, hp | hp, hy⟩)
      · exact Or.inl (Or.inl h)
      · subst hp
        exact Or.inl (Or.inr hy)
      · exact Or.inr ⟨p, hp, hy⟩

theorem mem_keys_computeRanks (rs : List (Combo × Nat)) (y : Tag) :
    y ∈ (computeRanks rs).map Prod.fst ↔ ∃ p ∈ rs, y ∈ p.1 := by
  have := mem_keys_computeRanks_aux rs [] y
  simpa [computeRanks] using this

theorem nodup_keys_computeRanks_aux (rs : List (Combo × Nat)) :
    ∀ (acc : List (Tag × Dy)), (acc.map Prod.fst).Nodup →
      ((rs.foldl (fun acc p => addComboRanks acc p.1 ⟨(p.2 : Int), p.1.length⟩) acc).map
        Prod.fst).Nodup := by
  induction rs with
  | nil => exact fun acc h => h
  | cons q rest ih =>
    intro acc h
    simp only [List.foldl_cons]
    exact ih _ (nodup_keys_addComboRanks q.1 acc _ h)

theorem nodup_keys_computeRanks (rs : List (Combo × Nat)) :
    ((computeRanks rs).map Prod.fst).Nodup := by
  have := nodup_keys_computeRanks_aux rs [] (by simp)
  simpa [computeRanks] using this

/-! ### Transpose lemmas -/

theorem mem_flatG (l : List (Dy × List Tag)) (x : Tag) :
    x ∈ flatG l ↔ ∃ p ∈ l, x ∈ p.2 := by
  simp only [flatG, List.mem_flatten, List.mem_map]
  constructor
  · rintro ⟨g, ⟨p, hp, rfl⟩, hx⟩
    exact ⟨p, hp, hx⟩
  · rintro ⟨p, hp, hx⟩
    exact ⟨p.2, ⟨p, hp, rfl⟩, hx⟩

theorem flatG_transposeAdd (acc : List (Dy × List Tag)) (v : Dy) (k : Tag) :
    (flatG (transposeAdd acc v k)).Perm (k :: flatG acc) := by
  induction acc with
  | nil => simp [transposeAdd, flatG]
  | cons q rest ih =>
    obtain ⟨w, g⟩ := q
    by_cases h : dyEq w v
    · simp only [transposeAdd, if_pos h, flatG, List.map_cons, List.flatten_cons,
        List.append_assoc, List.singleton_append]
      exact List.perm_middle
    · simp only [transposeAdd, if_neg h, flatG, List.map_cons, List.flatten_cons]
      exact (List.Perm.append_left g (by simpa [flatG] using ih)).trans List.perm_middle

theorem flatG_transpose_aux (ranks : List (Tag × Dy)) :
    ∀ (acc : List (Dy × List Tag)),
      (flatG (ranks.foldl (fun acc p => transposeAdd acc p.2 p.1) acc)).Perm
        (ranks.map Prod.fst ++ flatG acc) := by
  induction ranks with
  | nil => simp
  | cons p rest ih =>
    intro acc
    simp only [List.foldl_cons, List.map_cons, List.cons_append]
    exact ((ih _).trans
      (List.Perm.append_left _ (flatG_transposeAdd acc p.2 p.1))).trans List.perm_middle

theorem flatG_transpose (ranks : List (Tag × Dy)) :
    (flatG (transpose_dict ranks)).Perm (ranks.map Prod.fst) := by
  have := flatG_transpose_aux ranks []
  simpa [transpose_dict, flatG] using this

theorem transposeAdd_groups_ne_nil (acc : List (Dy × List Tag)) (v : Dy) (k : Tag)
    (h : ∀ p ∈ acc, p.2 ≠ []) : ∀ p ∈ transposeAdd acc v k, p.2 ≠ [] := by
  induction acc with
  | nil =>
    intro p hp
    simp only [transposeAdd, List.mem_singleton] at hp
    subst hp
    simp
  | cons q rest ih =>
    obtain ⟨w, g⟩ := q
    by_cases hq : dyEq w v
    · simp only [transposeAdd, if_pos hq]
      intro p hp
      rcases List.mem_cons.mp hp with rfl | hp
      · simp
      · exact h p (List.mem_cons_of_mem _ hp)
    · simp only [transposeAdd, if_neg hq]
      intro p hp
      rcases List.mem_cons.mp hp with rfl | hp
      · exact h _ (List.mem_cons_self _ _)
      · exact ih (fun p hp => h p (List.mem_cons_of_mem _ hp)) p hp

theorem transpose_groups_ne_nil (ranks : List (Tag × Dy)) :
    ∀ p ∈ transpose_dict ranks, p.2 ≠ [] := by
  have general : ∀ (l : List (Tag × Dy)) (acc : List (Dy × List Tag)),
      (∀ p ∈ acc, p.2 ≠ []) →
      ∀ p ∈ l.foldl (fun acc p => transposeAdd acc p.2 p.1) acc, p.2 ≠ [] := by
    intro l
    induction l with
    | nil => exact fun acc h => h
    | cons q rest ih =>
      intro acc h
      simp only [List.foldl_cons]
      exact ih _ (transposeAdd_groups_ne_nil acc q.2 q.1 h)
  exact general ranks [] (by simp)

theorem nodup_groups_of_flat :
    ∀ (l : List (Dy × List Tag)), (flatG l).Nodup → ∀ p ∈ l, p.2.Nodup := by
  intro l
  induction l with
  | nil => simp
  | cons q rest ih =>
    intro h p hp
    simp only [flatG, List.map_cons, List.flatten_cons, List.nodup_append] at h
    rcases List.mem_cons.mp hp with rfl | hp
    · exact h.1
    · exact ih (by simpa [flatG] using h.2.1) p hp

/-! ### minKey and findGroup lemmas -/

theorem minKey_eq_none_iff (l : List (Dy × List Tag)) : minKey l = none ↔ l = [] := by
  cases l with
  | nil => simp [minKey]
  | cons p rest => simp [minKey]

theorem dyEq_refl (w : Dy) : dyEq w w = true := by simp [dyEq]

theorem minKey_mem (l : List (Dy × List Tag)) :
    ∀ m, minKey l = some m → ∃ g, (m, g) ∈ l := by
  induction l with
  | nil => simp [minKey]
  | cons q rest ih =>
    obtain ⟨v, g⟩ := q
    intro m h
    simp only [minKey, Option.some.injEq] at h
    cases hrest : minKey rest with
    | none =>
      rw [hrest] at h
      exact ⟨g, by simp [← h]⟩
    | some m' =>
      rw [hrest] at h
      by_cases hle : dyLe v m'
      · have : m = v := by simpa [dyMin, hle] using h.symm
        exact ⟨g, by simp [this]⟩
      · have : m = m' := by simpa [dyMin, hle] using h.symm
        obtain ⟨g', hg'⟩ := ih m' hrest
        exact ⟨g', by simp [this, List.mem_cons_of_mem _ hg']⟩

theorem findGroup_mem (l : List (Dy × List Tag)) (v : Dy) :
    ∀ w g, (w, g) ∈ l → dyEq w v = true → ∃ w', (w', findGroup l v) ∈ l := by
  induction l with
  | nil => simp
  | cons q rest ih =>
    obtain ⟨w₀, g₀⟩ := q
    intro w g hm he
    by_cases h : dyEq w₀ v
    · exact ⟨w₀, by simp [findGroup, h]⟩
    · rcases List.mem_cons.mp hm with heq | hmem
      · injection heq with h1 h2
        subst h1
        exact absurd he h
      · obtain ⟨w', hw'⟩ := ih w g hmem he
        exact ⟨w', by simp [findGroup, h, List.mem_cons_of_mem _ hw']⟩

/-! ### updatedRanking lemmas -/

theorem mem_updatedRanking (rs : List (Combo × Nat)) (coll : List Tag) (p : Combo × Nat) :
    p ∈ updatedRanking rs coll ↔ p ∈ rs ∧ ∀ x ∈ p.1, x ∈ coll := by
  simp [updatedRanking, comboValid, List.mem_filter, List.all_eq_true]

/-! ### get_combinations lemmas -/

theorem combosOfSize_one (l : List Tag) : combosOfSize l 1 = l.map (fun x => [x]) := by
  induction l with
  | nil => rfl
  | cons x xs ih => simp [combosOfSize, ih]

theorem insertTag_length (a : Tag) (l : List Tag) :
    (insertTag a l).length = l.length + 1 := by
  induction l with
  | nil => rfl
  | cons b bs ih =>
    simp only [insertTag]
    by_cases h : strLtB (tagStr a) (tagStr b)
    · simp [h]
    · simp [h, ih]

theorem sortTags_length (l : List Tag) : (sortTags l).length = l.length := by
  induction l with
  | nil => rfl
  | cons a as ih => simp [sortTags, insertTag_length, ih]

theorem combosOfSize_length :
    ∀ (l : List Tag) (r : Nat) (c : List Tag), c ∈ combosOfSize l r → c.length = r := by
  intro l
  induction l with
  | nil =>
    intro r c hc
    cases r with
    | zero => simp only [combosOfSize, List.mem_singleton] at hc; simp [hc]
    | succ r => simp [combosOfSize] at hc
  | cons x xs ih =>
    intro r c hc
    cases r with
    | zero => simp only [combosOfSize, List.mem_singleton] at hc; simp [hc]
    | succ r =>
      simp only [combosOfSize, List.mem_append, List.mem_map] at hc
      rcases hc with ⟨c', hc', rfl⟩ | hc
      · simp [ih r c' hc']
      · exact ih (r + 1) c hc

theorem singleton_mem_get_combinations {k : Nat} (hk : 1 ≤ k) {x : Tag} {lst : List Tag}
    (hx : x ∈ lst) : [x] ∈ get_combinations lst k := by
  have h0 : (0 : Nat) ∈ List.range k := List.mem_range.mpr hk
  have hL : (combosOfSize lst 1).map sortTags ∈
      (List.range k).map (fun i => (combosOfSize lst (i + 1)).map sortTags) :=
    List.mem_map_of_mem _ h0
  have hx1 : [x] ∈ (combosOfSize lst 1).map sortTags := by
    rw [combosOfSize_one, List.map_map]
    have : [x] = (sortTags ∘ fun y => [y]) x := rfl
    rw [this]
    exact List.mem_map_of_mem _ hx
  exact List.mem_flatten.mpr ⟨_, hL, hx1⟩

theorem mem_get_combinations_ne_nil {c : Combo} {lst : List Tag} {k : Nat}
    (hc : c ∈ get_combinations lst k) : c ≠ [] := by
  rcases List.mem_flatten.mp hc with ⟨L, hL, hcL⟩
  rcases List.mem_map.mp hL with ⟨i, _, rfl⟩
  rcases List.mem_map.mp hcL with ⟨c', hc', rfl⟩
  have h1 : c'.length = i + 1 := combosOfSize_length lst (i + 1) c' hc'
  have h2 : (sortTags c').length = i + 1 := by rw [sortTags_length, h1]
  intro hnil
  rw [hnil] at h2
  simp at h2

/-! ### Construction lemmas -/

theorem mem_keys_foldl_counterUpdate {β : Type} [DecidableEq β] (f : List Tag → List β) :
    ∀ (dls : List (List Tag)) (acc : List (β × Nat)) (y : β),
      y ∈ counterKeys (dls.foldl (fun a d => counterUpdate a (f d)) acc) ↔
        y ∈ counterKeys acc ∨ ∃ d ∈ dls, y ∈ f d := by
  intro dls
  induction dls with
  | nil => simp
  | cons d rest ih =>
    intro acc y
    simp only [List.foldl_cons]
    rw [ih, mem_counterKeys_counterUpdate]
    simp only [List.mem_cons]
    constructor
    · rintro (⟨h | h⟩ | ⟨d', hd', hy⟩)
      · exact Or.inl h
      · exact Or.inr ⟨d, Or.inl rfl, h⟩
      · exact Or.inr ⟨d', Or.inr hd', hy⟩
    · rintro (h | ⟨d', hd' | hd', hy⟩)
      · exact Or.inl (Or.inl h)
      · subst hd'
        exact Or.inl (Or.inr hy)
      · exact Or.inr ⟨d', hd', hy⟩

theorem nodup_keys_foldl_counterUpdate {β : Type} [DecidableEq β] (f : List Tag → List β) :
    ∀ (dls : List (List Tag)) (acc : List (β × Nat)), (counterKeys acc).Nodup →
      (counterKeys (dls.foldl (fun a d => counterUpdate a (f d)) acc)).Nodup := by
  intro dls
  induction dls with
  | nil => exact fun acc h => h
  | cons d rest ih =>
    intro acc h
    simp only [List.foldl_cons]
    exact ih _ (nodup_counterKeys_counterUpdate (f d) acc h)

theorem init_collective_spec (banned : Card → Bool) (decks : List (List (Int × Card)))
    (o : Nat) (s : Int) (y : Tag) :
    y ∈ (Aggregator.init banned decks o s).collective ↔
      ∃ deck ∈ decks, y ∈ expandDeck banned deck := by
  show y ∈ counterKeys ((decks.map (expandDeck banned)).foldl
      (fun acc deck => counterUpdate acc deck) []) ↔ _
  rw [mem_keys_foldl_counterUpdate (fun d => d) (decks.map (expandDeck banned)) [] y]
  simp [counterKeys]

theorem init_collective_nodup (banned : Card → Bool) (decks : List (List (Int × Card)))
    (o : Nat) (s : Int) : (Aggregator.init banned decks o s).collective.Nodup := by
  show (counterKeys ((decks.map (expandDeck banned)).foldl
      (fun acc deck => counterUpdate acc deck) [])).Nodup
  exact nodup_keys_foldl_counterUpdate (fun d => d) _ [] (by simp [counterKeys])

theorem init_rs_key_spec (banned : Card → Bool) (decks : List (List (Int × Card)))
    (o : Nat) (s : Int) (c : Combo) :
    c ∈ counterKeys (Aggregator.init banned decks o s).ranking_structure ↔
      ∃ deck ∈ decks, c ∈ get_combinations (expandDeck banned deck) o := by
  show c ∈ counterKeys ((decks.map (expandDeck banned)).foldl
      (fun acc deck => counterUpdate acc (get_combinations deck o)) []) ↔ _
  rw [mem_keys_foldl_counterUpdate (fun d => get_combinations d o)
    (decks.map (expandDeck banned)) [] c]
  simp [counterKeys]

theorem init_rs_keys_nodup (banned : Card → Bool) (decks : List (List (Int × Card)))
    (o : Nat) (s : Int) :
    (counterKeys (Aggregator.init banned decks o s).ranking_structure).Nodup := by
  show (counterKeys ((decks.map (expandDeck banned)).foldl
      (fun acc deck => counterUpdate acc (get_combinations deck o)) [])).Nodup
  exact nodup_keys_foldl_counterUpdate (fun d => get_combinations d o) _ []
    (by simp [counterKeys])

theorem init_good (banned : Card → Bool) (decks : List (List (Int × Card)))
    (o : Nat) (s : Int) (ho : 1 ≤ o) : Good (Aggregator.init banned decks o s) := by
  refine ⟨?_, init_collective_nodup banned decks o s, ?_⟩
  · intro x hx
    rcases (init_collective_spec banned decks o s x).mp hx with ⟨deck, hdeck, hxd⟩
    exact (init_rs_key_spec banned decks o s [x]).mpr
      ⟨deck, hdeck, singleton_mem_get_combinations ho hxd⟩
  · intro p hp
    have hkey : p.1 ∈ counterKeys (Aggregator.init banned decks o s).ranking_structure :=
      List.mem_map_of_mem Prod.fst hp
    rcases (init_rs_key_spec banned decks o s p.1).mp hkey with ⟨deck, _, hc⟩
    exact mem_get_combinations_ne_nil hc

theorem init_irs_eq (banned : Card → Bool) (decks : List (List (Int × Card)))
    (o : Nat) (s : Int) :
    (Aggregator.init banned decks o s).initial_ranking_structure =
      (Aggregator.init banned decks o s).ranking_structure := rfl

theorem init_size (banned : Card → Bool) (decks : List (List (Int × Card)))
    (o : Nat) (s : Int) : (Aggregator.init banned decks o s).size = s := rfl

/-! ### Pruning-step lemmas -/

theorem ranks_keys_sub (a : Aggregator) :
    ∀ x ∈ (computeRanks (updatedRanking a.ranking_structure a.collective)).map Prod.fst,
      x ∈ a.collective := by
  intro x hx
  rcases (mem_keys_computeRanks _ x).mp hx with ⟨p, hp, hxp⟩
  exact ((mem_updatedRanking _ _ p).mp hp).2 x hxp

theorem ranks_keys_cover (a : Aggregator) (hinv : SingletonInv a) :
    ∀ x ∈ a.collective,
      x ∈ (computeRanks (updatedRanking a.ranking_structure a.collective)).map Prod.fst := by
  intro x hx
  rcases List.mem_map.mp (hinv x hx) with ⟨p, hp, hp1⟩
  refine (mem_keys_computeRanks _ x).mpr ⟨p, ?_, ?_⟩
  · refine (mem_updatedRanking _ _ p).mpr ⟨hp, ?_⟩
    intro y hy
    rw [hp1] at hy
    rw [List.mem_singleton.mp hy]
    exact hx
  · rw [hp1]
    exact List.mem_singleton.mpr rfl

theorem ranksOf_group_sub (a : Aggregator) :
    ∀ p ∈ ranksOf a, ∀ x ∈ p.2, x ∈ a.collective := by
  intro p hp x hx
  have hflat : x ∈ flatG (ranksOf a) := (mem_flatG _ x).mpr ⟨p, hp, hx⟩
  have hkey := (flatG_transpose (computeRanks (updatedRanking a.ranking_structure
    a.collective))).mem_iff.mp hflat
  exact ranks_keys_sub a x hkey

theorem ranksOf_group_nodup (a : Aggregator) : ∀ p ∈ ranksOf a, p.2.Nodup := by
  have hperm := flatG_transpose (computeRanks (updatedRanking a.ranking_structure a.collective))
  have hflat : (flatG (ranksOf a)).Nodup :=
    hperm.nodup_iff.mpr (nodup_keys_computeRanks _)
  exact nodup_groups_of_flat _ hflat

theorem ranksOf_ne_nil (a : Aggregator) (hinv : SingletonInv a) (hne : a.collective ≠ []) :
    ranksOf a ≠ [] := by
  obtain ⟨x, hx⟩ := List.exists_mem_of_ne_nil _ hne
  have hkey := ranks_keys_cover a hinv x hx
  have hflat : x ∈ flatG (ranksOf a) :=
    (flatG_transpose (computeRanks (updatedRanking a.ranking_structure
      a.collective))).mem_iff.mpr hkey
  intro h
  rw [h] at hflat
  simp [flatG] at hflat

theorem remove_cards_ok (a : Aggregator) (hinv : SingletonInv a) (hne : a.collective ≠ []) :
    ∃ b, a.remove_cards = .ok b := by
  cases hm : minKey (ranksOf a) with
  | none =>
    exact absurd ((minKey_eq_none_iff _).mp hm) (ranksOf_ne_nil a hinv hne)
  | some m =>
    refine ⟨{ a with ranking_structure := updatedRanking a.ranking_structure a.collective,
                     collective := removeLoop a.size a.collective (findGroup (ranksOf a) m) },
      ?_⟩
    simp [Aggregator.remove_cards, hm]

theorem remove_cards_ok_inv {a b : Aggregator} (h : a.remove_cards = .ok b) :
    b.ranking_structure = updatedRanking a.ranking_structure a.collective ∧
    b.collective = removeLoop a.size a.collective (tiedGroup a) ∧
    b.size = a.size ∧ b.ordre = a.ordre ∧
    b.initial_ranking_structure = a.initial_ranking_structure ∧
    b.decklists = a.decklists := by
  cases hm : minKey (ranksOf a) with
  | none => simp [Aggregator.remove_cards, hm] at h
  | some m =>
    simp only [Aggregator.remove_cards, hm, Except.ok.injEq] at h
    subst h
    simp [tiedGroup, hm]

theorem tiedGroup_group (a : Aggregator) {m : Dy} (hm : minKey (ranksOf a) = some m) :
    ∃ w, (w, tiedGroup a) ∈ ranksOf a := by
  obtain ⟨g, hg⟩ := minKey_mem _ m hm
  have := findGroup_mem (ranksOf a) m m g hg (dyEq_refl m)
  simpa [tiedGroup, hm] using this

theorem tiedGroup_sub (a : Aggregator) {m : Dy} (hm : minKey (ranksOf a) = some m) :
    ∀ x ∈ tiedGroup a, x ∈ a.collective := by
  obtain ⟨w, hw⟩ := tiedGroup_group a hm
  intro x hx
  exact ranksOf_group_sub a (w, tiedGroup a) hw x hx

theorem tiedGroup_nodup (a : Aggregator) {m : Dy} (hm : minKey (ranksOf a) = some m) :
    (tiedGroup a).Nodup := by
  obtain ⟨w, hw⟩ := tiedGroup_group a hm
  exact ranksOf_group_nodup a (w, tiedGroup a) hw

theorem tiedGroup_ne_nil (a : Aggregator) {m : Dy} (hm : minKey (ranksOf a) = some m) :
    tiedGroup a ≠ [] := by
  obtain ⟨w, hw⟩ := tiedGroup_group a hm
  exact transpose_groups_ne_nil _ (w, tiedGroup a) hw

theorem remove_cards_minKey_some {a b : Aggregator} (h : a.remove_cards = .ok b) :
    ∃ m, minKey (ranksOf a) = some m := by
  cases hm : minKey (ranksOf a) with
  | none => simp [Aggregator.remove_cards, hm] at h
  | some m => exact ⟨m, rfl⟩

theorem remove_cards_good {a b : Aggregator} (hg : Good a) (h : a.remove_cards = .ok b) :
    Good b := by
  obtain ⟨hrs, hcoll, _, _, _, _⟩ := remove_cards_ok_inv h
  obtain ⟨hinv, hnd, hcombos⟩ := hg
  refine ⟨?_, ?_, ?_⟩
  · intro x hx
    rw [hcoll] at hx
    have hxa : x ∈ a.collective := removeLoop_subset a.size (tiedGroup a) a.collective hx
    rcases List.mem_map.mp (hinv x hxa) with ⟨p, hp, hp1⟩
    have hur : p ∈ updatedRanking a.ranking_structure a.collective := by
      refine (mem_updatedRanking _ _ p).mpr ⟨hp, ?_⟩
      intro y hy
      rw [hp1] at hy
      rw [List.mem_singleton.mp hy]
      exact hxa
    rw [hrs]
    rw [← hp1]
    exact List.mem_map_of_mem Prod.fst hur
  · rw [hcoll]
    exact removeLoop_nodup a.size (tiedGroup a) a.collective hnd
  · intro p hp
    rw [hrs] at hp
    exact hcombos p ((mem_updatedRanking _ _ p).mp hp).1

theorem remove_cards_len_lt {a b : Aggregator} (h : a.remove_cards = .ok b)
    (hlt : a.size < (a.collective.length : Int)) :
    b.collective.length < a.collective.length := by
  obtain ⟨m, hm⟩ := remove_cards_minKey_some h
  obtain ⟨_, hcoll, _, _, _, _⟩ := remove_cards_ok_inv h
  rw [hcoll]
  cases hgrp : tiedGroup a with
  | nil => exact absurd hgrp (tiedGroup_ne_nil a hm)
  | cons c cs =>
    have hc : c ∈ a.collective := by
      apply tiedGroup_sub a hm
      rw [hgrp]
      exact List.mem_cons_self c cs
    exact removeLoop_strict a.size a.collective c cs hlt hc

theorem remove_cards_len_ge {a b : Aggregator} (h : a.remove_cards = .ok b)
    (hle : a.size ≤ (a.collective.length : Int)) :
    a.size ≤ (b.collective.length : Int) := by
  obtain ⟨_, hcoll, _, _, _, _⟩ := remove_cards_ok_inv h
  rw [hcoll]
  exact removeLoop_size_le a.size (tiedGroup a) a.collective hle

theorem remove_cards_len_exact {a b : Aggregator} (hg : Good a) (h : a.remove_cards = .ok b)
    (hle : a.size ≤ (a.collective.length : Int)) :
    (b.collective.length : Int) = max a.size ((a.collective.length : Int) -
      (tiedGroup a).length) := by
  obtain ⟨m, hm⟩ := remove_cards_minKey_some h
  obtain ⟨_, hcoll, _, _, _, _⟩ := remove_cards_ok_inv h
  rw [hcoll]
  exact removeLoop_exact a.size (tiedGroup a) a.collective hg.2.1 (tiedGroup_nodup a hm)
    (tiedGroup_sub a hm) hle

theorem ranksOf_nil_of_empty (a : Aggregator) (hcombos : ∀ p ∈ a.ranking_structure, p.1 ≠ [])
    (hc : a.collective = []) : ranksOf a = [] := by
  have hur : updatedRanking a.ranking_structure a.collective = [] := by
    rw [List.eq_nil_iff_forall_not_mem]
    intro p hp
    rcases (mem_updatedRanking _ _ p).mp hp with ⟨hmem, hall⟩
    cases hp1 : p.1 with
    | nil => exact hcombos p hmem hp1
    | cons y ys =>
      have : y ∈ a.collective := hall y (by rw [hp1]; exact List.mem_cons_self y ys)
      rw [hc] at this
      cases this
  simp [ranksOf, hur, computeRanks, transpose_dict]

theorem remove_cards_error_of_empty (a : Aggregator)
    (hcombos : ∀ p ∈ a.ranking_structure, p.1 ≠ []) (hc : a.collective = []) :
    a.remove_cards = .error .valueError := by
  have h := ranksOf_nil_of_empty a hcombos hc
  have hm : minKey (ranksOf a) = none := by rw [h]; rfl
  simp [Aggregator.remove_cards, hm]

/-! ### Aggregation loop lemmas -/

theorem aggregateFuel_ok_of_le {a : Aggregator}
    (h : ¬ a.size < (a.collective.length : Int)) (fuel : Nat) :
    aggregateFuel fuel a = .ok a := by
  cases fuel with
  | zero => simp [aggregateFuel, h]
  | succ fuel => simp [aggregateFuel, h]

theorem aggregate_noop {a : Aggregator} (h : ¬ a.size < (a.collective.length : Int)) :
    a.aggregate = .ok a :=
  aggregateFuel_ok_of_le h _

theorem aggregateFuel_reaches (fuel : Nat) :
    ∀ (a : Aggregator), Good a → 0 ≤ a.size → a.size ≤ (a.collective.length : Int) →
      a.collective.length ≤ fuel →
      ∃ b, aggregateFuel fuel a = .ok b ∧ (b.collective.length : Int) = a.size ∧ Good b ∧
        b.size = a.size ∧ b.initial_ranking_structure = a.initial_ranking_structure := by
  induction fuel with
  | zero =>
    intro a hg h0 hle hfuel
    have hlen : a.collective.length = 0 := Nat.le_zero.mp hfuel
    have hnot : ¬ a.size < (a.collective.length : Int) := by omega
    refine ⟨a, aggregateFuel_ok_of_le hnot 0, ?_, hg, rfl, rfl⟩
    omega
  | succ fuel ih =>
    intro a hg h0 hle hfuel
    by_cases hlt : a.size < (a.collective.length : Int)
    · have hne : a.collective ≠ [] := by
        intro hc
        rw [hc] at hlt
        simp at hlt
        omega
      obtain ⟨b, hb⟩ := remove_cards_ok a hg.1 hne
      have hgb : Good b := remove_cards_good hg hb
      have hlenb : b.collective.length < a.collective.length := remove_cards_len_lt hb hlt
      have hgeb : a.size ≤ (b.collective.length : Int) := remove_cards_len_ge hb hle
      obtain ⟨_, _, hsz, _, hirs, _⟩ := remove_cards_ok_inv hb
      obtain ⟨c, hc, hclen, hgc, hcsz, hcirs⟩ := ih b hgb (hsz ▸ h0) (hsz ▸ hgeb)
        (by omega)
      refine ⟨c, ?_, ?_, hgc, ?_, ?_⟩
      · simp only [aggregateFuel, if_pos hlt, hb]
        exact hc
      · rw [hclen, hsz]
      · rw [hcsz, hsz]
      · rw [hcirs, hirs]
    · have : (a.collective.length : Int) = a.size := by omega
      exact ⟨a, aggregateFuel_ok_of_le hlt _, this, hg, rfl, rfl⟩

theorem aggregateFuel_error_neg (fuel : Nat) :
    ∀ (a : Aggregator), Good a → a.size < 0 → a.collective.length < fuel →
      aggregateFuel fuel a = .error .valueError := by
  induction fuel with
  | zero =>
    intro a _ _ hfuel
    exact absurd hfuel (Nat.not_lt_zero _)
  | succ fuel ih =>
    intro a hg hneg hfuel
    have hlt : a.size < (a.collective.length : Int) := by
      have : (0 : Int) ≤ (a.collective.length : Int) := Int.ofNat_nonneg _
      omega
    by_cases hc : a.collective = []
    · have herr := remove_cards_error_of_empty a hg.2.2 hc
      simp [aggregateFuel, if_pos hlt, herr]
    · obtain ⟨b, hb⟩ := remove_cards_ok a hg.1 hc
      have hgb : Good b := remove_cards_good hg hb
      have hlenb : b.collective.length < a.collective.length := remove_cards_len_lt hb hlt
      obtain ⟨_, _, hsz, _, _, _⟩ := remove_cards_ok_inv hb
      have := ih b hgb (hsz ▸ hneg) (by omega)
      simp only [aggregateFuel, if_pos hlt, hb]
      exact this

theorem aggregateFuel_ledger_sub (fuel : Nat) :
    ∀ (a b : Aggregator), aggregateFuel fuel a = .ok b →
      ∀ p ∈ b.ranking_structure, p ∈ a.ranking_structure := by
  induction fuel with
  | zero =>
    intro a b h
    by_cases hlt : a.size < (a.collective.length : Int)
    · simp [aggregateFuel, if_pos hlt] at h
    · simp only [aggregateFuel, if_neg hlt, Except.ok.injEq] at h
      subst h
      exact fun p hp => hp
  | succ fuel ih =>
    intro a b h
    by_cases hlt : a.size < (a.collective.length : Int)
    · simp only [aggregateFuel, if_pos hlt] at h
      cases hrc : a.remove_cards with
      | error e => rw [hrc] at h; cases h
      | ok a2 =>
        rw [hrc] at h
        intro p hp
        have hp2 := ih a2 b h p hp
        obtain ⟨hrs, _, _, _, _, _⟩ := remove_cards_ok_inv hrc
        rw [hrs] at hp2
        exact ((mem_updatedRanking _ _ p).mp hp2).1
    · simp only [aggregateFuel, if_neg hlt, Except.ok.injEq] at h
      subst h
      exact fun p hp => hp

/-! ### Claim theorems -/

/-- C1: with order at least 1, aggregating a corpus whose initial collective
has at least target_size instances (target_size nonnegative) ends with a
collective of exactly target_size instances, and a corpus whose initial
collective is smaller than target_size is returned unchanged with no
removal. -/
theorem claim_C1 (banned : Card → Bool) (decks : List (List (Int × Card))) (ordre : Nat)
    (size : Int) (ho : 1 ≤ ordre) :
    (0 ≤ size → size ≤ ((Aggregator.init banned decks ordre size).collective.length : Int) →
      ∃ b, (Aggregator.init banned decks ordre size).aggregate = .ok b ∧
        (b.collective.length : Int) = size)
    ∧ (((Aggregator.init banned decks ordre size).collective.length : Int) < size →
      (Aggregator.init banned decks ordre size).aggregate = .ok
        (Aggregator.init banned decks ordre size)) := by
  constructor
  · intro h0 hle
    obtain ⟨b, hb, hlen, _, _, _⟩ := aggregateFuel_reaches
      ((Aggregator.init banned decks ordre size).collective.length + 1)
      (Aggregator.init banned decks ordre size)
      (init_good banned decks ordre size ho)
      (by rw [init_size]; exact h0)
      (by rw [init_size]; exact hle)
      (Nat.le_succ _)
    refine ⟨b, hb, ?_⟩
    rw [hlen, init_size]
  · intro hlt
    apply aggregate_noop
    rw [init_size]
    omega

/-- Witness for C1 at a concrete three-card corpus pruned to two. -/
theorem claim_C1_witness :
    ∃ b, (Aggregator.init noBan [[((1 : Int), "A"), ((1 : Int), "B"), ((1 : Int), "C")]]
        1 2).aggregate = .ok b ∧ (b.collective.length : Int) = 2 :=
  (claim_C1 noBan [[((1 : Int), "A"), ((1 : Int), "B"), ((1 : Int), "C")]] 1 2
    (le_refl 1)).1 (by decide) (by decide)

/-- C2 counterexample: on the four-way tie with c = 4, g = 4, t = 2 we have
c - g < t, where the claim requires removing exactly one instance (leaving
3); the step instead removes two, stopping exactly at the target. -/
theorem claim_C2_cex :
    tiedAgg.collective.length = 4 ∧ (tiedGroup tiedAgg).length = 4 ∧
    okCollectiveLen tiedAgg.remove_cards = some 2 ∧
    okCollectiveLen tiedAgg.remove_cards ≠ some 3 := by decide

/-- C2 amended: a pruning step entered with c instances, tied group g and
target t (0 <= t < c) leaves max t (c - g) instances: the whole group is
removed when that does not undershoot, and otherwise exactly c - t
instances are removed, stopping at the target. -/
theorem claim_C2_amend (a : Aggregator) (hg : Good a) (h0 : 0 ≤ a.size)
    (hlt : a.size < (a.collective.length : Int)) :
    ∃ b, a.remove_cards = .ok b ∧
      (b.collective.length : Int) =
        max a.size ((a.collective.length : Int) - (tiedGroup a).length) := by
  have hne : a.collective ≠ [] := by
    intro hc
    rw [hc] at hlt
    simp at hlt
    omega
  obtain ⟨b, hb⟩ := remove_cards_ok a hg.1 hne
  exact ⟨b, hb, remove_cards_len_exact hg hb (le_of_lt hlt)⟩

/-- Witness for the amended C2 on the four-way tie. -/
theorem claim_C2_amend_witness :
    ∃ b, tiedAgg.remove_cards = .ok b ∧
      (b.collective.length : Int) =
        max tiedAgg.size ((tiedAgg.collective.length : Int) - (tiedGroup tiedAgg).length) :=
  claim_C2_amend tiedAgg (by simp only [Good, SingletonInv]; decide) (by decide) (by decide)

/-- C3 counterexample: after the Bolt/Ponder aggregation completes, the
ledger still holds a combination one member of which has been removed from
the collective. -/
theorem claim_C3_cex :
    ledgerDesync boltPonderAgg.aggregate = true ∧
    okCollectiveLen boltPonderAgg.aggregate = some 2 := by decide

/-- C3 amended: the ledger is synchronised at each rank calculation — every
combination surviving the calculation has all members in the collective as
of that moment and keeps its pair (combination, count) unchanged — and over
any successful run every surviving ledger pair already occurred in the
starting ledger (counts never change); combinations invalidated by a step's
removals persist until the next step's calculation. -/
theorem claim_C3_amend :
    (∀ (rs : List (Combo × Nat)) (coll : List Tag) (p : Combo × Nat),
        p ∈ updatedRanking rs coll → (∀ x ∈ p.1, x ∈ coll) ∧ p ∈ rs)
    ∧ (∀ (fuel : Nat) (a b : Aggregator), aggregateFuel fuel a = .ok b →
        ∀ p ∈ b.ranking_structure, p ∈ a.ranking_structure) := by
  constructor
  · intro rs coll p hp
    exact ⟨((mem_updatedRanking rs coll p).mp hp).2, ((mem_updatedRanking rs coll p).mp hp).1⟩
  · exact fun fuel a b h => aggregateFuel_ledger_sub fuel a b h

/-- Witness for the amended C3 on a one-pair ledger. -/
theorem claim_C3_amend_witness :
    (∀ x ∈ (([("A", 0)], 1) : Combo × Nat).1, x ∈ [(("A" : Card), 0)]) ∧
    (([("A", 0)], 1) : Combo × Nat) ∈ [(([(("A" : Card), 0)] : Combo), 1)] :=
  claim_C3_amend.1 [([("A", 0)], 1)] [("A", 0)] ([("A", 0)], 1) (by decide)

/-- C4 counterexample: a strictly negative target makes aggregate fail with
the ValueError from min() once the collective is emptied, instead of being
handled as a normal boundary case. -/
theorem claim_C4_cex :
    (Aggregator.init noBan [[((1 : Int), "A")]] 1 (-1)).aggregate =
      .error .valueError := by decide

/-- C4 amended: target 0 is a normal boundary case — the loop removes every
instance and the renderer yields an empty decklist — but every strictly
negative target makes aggregate raise the ValueError of min() on an empty
rank mapping. -/
theorem claim_C4_amend (banned : Card → Bool) (decks : List (List (Int × Card)))
    (ordre : Nat) (ho : 1 ≤ ordre) :
    (∃ b, (Aggregator.init banned decks ordre 0).aggregate = .ok b ∧ b.collective = [] ∧
      b.decklist = [])
    ∧ ∀ size : Int, size < 0 →
        (Aggregator.init banned decks ordre size).aggregate = .error .valueError := by
  constructor
  · obtain ⟨b, hb, hlen, _, _, _⟩ := aggregateFuel_reaches
      ((Aggregator.init banned decks ordre 0).collective.length + 1)
      (Aggregator.init banned decks ordre 0)
      (init_good banned decks ordre 0 ho)
      (by rw [init_size])
      (by rw [init_size]; exact Int.ofNat_nonneg _)
      (Nat.le_succ _)
    rw [init_size] at hlen
    have hnil : b.collective = [] := by
      have : b.collective.length = 0 := by exact_mod_cast hlen
      exact List.length_eq_zero.mp this
    have hdl : b.decklist = [] := by
      rw [Aggregator.decklist, hnil]
      rfl
    exact ⟨b, hb, hnil, hdl⟩
  · intro size hneg
    exact aggregateFuel_error_neg _ _ (init_good banned decks ordre size ho)
      (by rw [init_size]; exact hneg) (Nat.lt_succ_self _)

/-- Witness for the amended C4 on a one-card corpus. -/
theorem claim_C4_amend_witness :
    (∃ b, (Aggregator.init noBan [[((1 : Int), "A")]] 1 0).aggregate = .ok b ∧
      b.collective = [] ∧ b.decklist = [])
    ∧ (Aggregator.init noBan [[((1 : Int), "A")]] 1 (-2)).aggregate =
        .error .valueError :=
  ⟨(claim_C4_amend noBan [[((1 : Int), "A")]] 1 (le_refl 1)).1,
    (claim_C4_amend noBan [[((1 : Int), "A")]] 1 (le_refl 1)).2 (-2) (by decide)⟩

/-- C5 counterexample: the Bolt/Ponder scenario renders "1 Bolt" and
"1 Ponder", not the single line "2 Bolt" the claim requires. -/
theorem claim_C5_cex :
    okDecklist boltPonderAgg.aggregate = some ["1 Bolt", "1 Ponder"] ∧
    some ["1 Bolt", "1 Ponder"] ≠ some ["2 Bolt"] := by decide

/-- C5 amended: each deck expands to the instances Bolt 0, Bolt 1 and
Ponder 0; all three singleton combinations carry the same ledger count 2, so
all three instances tie at the minimum rank, and the step removes the first
instance in ledger order (Bolt 0), leaving the rendered output
"1 Bolt", "1 Ponder". -/
theorem claim_C5_amend :
    boltPonderAgg.decklists =
      [[("Bolt", 0), ("Bolt", 1), ("Ponder", 0)],
       [("Bolt", 0), ("Bolt", 1), ("Ponder", 0)]] ∧
    boltPonderAgg.ranking_structure =
      [([("Bolt", 0)], 2), ([("Bolt", 1)], 2), ([("Ponder", 0)], 2)] ∧
    tiedGroup boltPonderAgg = [("Bolt", 0), ("Bolt", 1), ("Ponder", 0)] ∧
    okCollectiveLen boltPonderAgg.aggregate = some 2 ∧
    okDecklist boltPonderAgg.aggregate = some ["1 Bolt", "1 Ponder"] := by decide

/-- C6 counterexample: constructing from a deck with quantity -1 raises
nothing and yields exactly the Aggregator of an empty deck — quantity -1 is
silently treated as zero copies. -/
theorem claim_C6_cex :
    Aggregator.init noBan [[((-1 : Int), "X")]] 1 100 =
      Aggregator.init noBan [[]] 1 100 := by decide

/-- C6 amended: a pair with negative quantity contributes no instance at
all — range of a negative count is empty — and construction proceeds
normally, with no InvalidQuantity condition raised. -/
theorem claim_C6_amend (banned : Card → Bool) (q : Int) (name : Card)
    (rest : List (Int × Card)) (hq : q < 0) :
    expandDeck banned ((q, name) :: rest) = expandDeck banned rest := by
  simp [expandDeck, Int.toNat_of_nonpos (le_of_lt hq)]

/-- Witness for the amended C6. -/
theorem claim_C6_amend_witness :
    expandDeck noBan [((-1 : Int), "X"), ((2 : Int), "Y")] =
      expandDeck noBan [((2 : Int), "Y")] :=
  claim_C6_amend noBan (-1) "X" [((2 : Int), "Y")] (by decide)

/-- C9 counterexample: the single copy of a quantity-1 pair is tagged with
index 0, not with index 1 as the 1-indexed claim requires. -/
theorem claim_C9_cex :
    expandDeck noBan [((1 : Int), "X")] = [("X", 0)] ∧ (("X", 0) : Tag) ≠ ("X", 1) := by
  decide

/-- C9 amended: a pair with quantity q at least 0 expands to exactly q
instances whose tags are (name, 0) through (name, q - 1): the i-th copy
(1-indexed) is tagged with index i - 1. -/
theorem claim_C9_amend (banned : Card → Bool) (name : Card) (q : Int)
    (hb : banned name = false) :
    expandDeck banned [(q, name)] = (List.range q.toNat).map (fun i => (name, i)) ∧
    (expandDeck banned [(q, name)]).length = q.toNat := by
  constructor
  · simp [expandDeck, hb]
  · simp [expandDeck, hb]

/-- Witness for the amended C9 at quantity 2. -/
theorem claim_C9_amend_witness :
    expandDeck noBan [((2 : Int), "X")] =
      (List.range (2 : Int).toNat).map (fun i => ("X", i)) ∧
    (expandDeck noBan [((2 : Int), "X")]).length = (2 : Int).toNat :=
  claim_C9_amend noBan "X" 2 (by decide)

/-- C10: with order at least 1 construction establishes the invariant that
every collective instance keeps its singleton combination in the ledger; a
successful pruning step preserves it; and under it a nonempty collective
yields a nonempty inverted rank mapping whose groups cover the collective,
so the step succeeds — min() never sees an empty sequence. -/
theorem claim_C10 :
    (∀ (banned : Card → Bool) (decks : List (List (Int × Card))) (ordre : Nat) (size : Int),
        1 ≤ ordre → Good (Aggregator.init banned decks ordre size))
    ∧ (∀ a b : Aggregator, Good a → a.remove_cards = .ok b → Good b)
    ∧ (∀ a : Aggregator, Good a → a.collective ≠ [] →
        ranksOf a ≠ [] ∧ (∀ x ∈ a.collective, ∃ p ∈ ranksOf a, x ∈ p.2) ∧
          ∃ b, a.remove_cards = .ok b) := by
  refine ⟨fun banned decks o s ho => init_good banned decks o s ho,
    fun a b hg h => remove_cards_good hg h,
    fun a hg hne => ⟨ranksOf_ne_nil a hg.1 hne, ?_, remove_cards_ok a hg.1 hne⟩⟩
  intro x hx
  have hkey := ranks_keys_cover a hg.1 x hx
  have hflat := (flatG_transpose (computeRanks (updatedRanking a.ranking_structure
    a.collective))).mem_iff.mpr hkey
  exact (mem_flatG (ranksOf a) x).mp hflat

/-- Witness for C10 on the Bolt/Ponder corpus. -/
theorem claim_C10_witness :
    ranksOf boltPonderAgg ≠ [] ∧
    (∀ x ∈ boltPonderAgg.collective, ∃ p ∈ ranksOf boltPonderAgg, x ∈ p.2) ∧
    ∃ b, boltPonderAgg.remove_cards = .ok b :=
  claim_C10.2.2 boltPonderAgg (by simp only [Good, SingletonInv]; decide) (by decide)

/-- A state whose ledger still equals the (duplicate-free-keyed) initial
snapshot scores robustness 0 when the snapshot is nonempty. -/
theorem robustesse_self (a : Aggregator)
    (heq : a.ranking_structure = a.initial_ranking_structure)
    (hnd : (counterKeys a.ranking_structure).Nodup)
    (hne : a.initial_ranking_structure ≠ []) : a.robustesse = some 0 := by
  have hchg : ∀ x ∈ a.initial_ranking_structure.map
      (fun p => |((lookupCount a.ranking_structure p.1 : ℚ) - (p.2 : ℚ))|), x = 0 := by
    intro x hx
    rcases List.mem_map.mp hx with ⟨p, hp, rfl⟩
    have hl : lookupCount a.ranking_structure p.1 = p.2 := by
      apply lookupCount_of_mem hnd
      rw [heq]
      exact hp
    rw [hl]
    simp
  have hsum : (a.initial_ranking_structure.map
      (fun p => |((lookupCount a.ranking_structure p.1 : ℚ) - (p.2 : ℚ))|)).sum = 0 :=
    List.sum_eq_zero hchg
  have hlen0 : a.initial_ranking_structure.length ≠ 0 :=
    fun h => hne (List.length_eq_zero.mp h)
  simp [Aggregator.robustesse, hsum, hlen0]

/-- C8 counterexample: a corpus whose only deck has quantity zero has an
empty initial ledger; its target exceeds the (empty) initial collective, yet
the robustness score is the infinite degenerate value, not 0. -/
theorem claim_C8_cex :
    ((zeroQtyAgg.collective.length : Int) ≤ 5) ∧ zeroQtyAgg.aggregate = .ok zeroQtyAgg ∧
    zeroQtyAgg.robustesse = none ∧ (none : Option ℚ) ≠ some 0 := by decide

/-- C8 amended: when target_size is at least the initial collective size,
aggregate performs no removal, and the robustness score is 0 provided the
initial ledger is nonempty (an empty initial ledger scores infinity). -/
theorem claim_C8_amend (banned : Card → Bool) (decks : List (List (Int × Card)))
    (ordre : Nat) (size : Int)
    (hle : ((Aggregator.init banned decks ordre size).collective.length : Int) ≤ size) :
    (Aggregator.init banned decks ordre size).aggregate =
      .ok (Aggregator.init banned decks ordre size) ∧
    ((Aggregator.init banned decks ordre size).initial_ranking_structure ≠ [] →
      (Aggregator.init banned decks ordre size).robustesse = some 0) := by
  constructor
  · apply aggregate_noop
    rw [init_size]
    omega
  · intro hne
    exact robustesse_self _ (init_irs_eq banned decks ordre size).symm
      (init_rs_keys_nodup banned decks ordre size) hne

/-- Witness for the amended C8 on a one-card corpus with target 5. -/
theorem claim_C8_amend_witness :
    (Aggregator.init noBan [[((1 : Int), "A")]] 1 5).aggregate =
      .ok (Aggregator.init noBan [[((1 : Int), "A")]] 1 5) ∧
    ((Aggregator.init noBan [[((1 : Int), "A")]] 1 5).initial_ranking_structure ≠ [] →
      (Aggregator.init noBan [[((1 : Int), "A")]] 1 5).robustesse = some 0) :=
  claim_C8_amend noBan [[((1 : Int), "A")]] 1 5 (by decide)

/-! ### Renderer round-trip lemmas -/

theorem length_of_nodup_range {l : List Nat} (hnd : l.Nodup) {M : Nat}
    (hmem : ∀ i, i ∈ l ↔ i < M) : l.length = M := by
  have h1 : l.toFinset = Finset.range M := by
    ext i
    simp [List.mem_toFinset, hmem i, Finset.mem_range]
  have h2 : l.toFinset.card = l.length := List.toFinset_card_of_nodup hnd
  rw [h1, Finset.card_range] at h2
  exact h2.symm

